import Mathlib

/-!
Verification development for the resource-gated interrupt-enable controller
(include/interrupt/dynamic_controller.hpp) and the indexed message handler
(include/msg/indexed_handler.hpp).

The C++ code is templated over compile-time types: registers, enable fields,
interrupts, resources and callback identities.  We embed those identities as
natural numbers and the static interrupt table as a list.  Register values of
type RegType::DataType (an unsigned integer of some bit width) are embedded as
Nat together with the register bit width; the all-ones value
std::numeric_limits of DataType max() becomes 2 ^ width - 1, and the C++
bitwise complement of a mask becomes XOR with that all-ones value.

The mutable per-type statics (allowed_enables, dynamic_enables,
is_resource_on) become fields of an explicit state record, and the hardware
writes issued by apply(write(...)) are recorded in an append-only write log so
that the value most recently written to a register is observable.
-/

/-- Identity and bit mask of one interrupt enable field; reg names the
RegisterType the field belongs to, mask is Field::get_mask(). -/
structure IField where
  reg : Nat
  mask : Nat
deriving DecidableEq

/-- One row of the static interrupt table RootT::all_irqs: an optional enable
field (has_enable_field is enableField.isSome), the tuple of resources the
interrupt depends on, and the callback identity (IrqCallbackType). -/
structure Irq where
  enableField : Option IField
  resources : List Nat
  callback : Nat
deriving DecidableEq

/-- The static configuration: the interrupt table and the bit width of each
register DataType. -/
structure Config where
  irqs : List Irq
  regWidth : Nat → Nat

/-- numeric_limits of DataType max() for a register: the all-ones value. -/
def allOnes (cfg : Config) (r : Nat) : Nat :=
  2 ^ cfg.regWidth r - 1

/-- Pointwise update of a map with Nat keys. -/
def updf {α : Type} (f : Nat → α) (k : Nat) (v : α) : Nat → α :=
  fun x => if x = k then v else f x

/-- The mutable state of a dynamic_controller specialization: allowed is the
per-register allowed_enables mask, dynamic the per-register dynamic_enables
mask, resOn the per-resource is_resource_on flag, and writes the log of
hardware register writes (register, value) in program order. -/
structure DCState where
  allowed : Nat → Nat
  dynamic : Nat → Nat
  resOn : Nat → Bool
  writes : List (Nat × Nat)

/-- The value most recently written to register r according to the write log. -/
def lastWrite (writes : List (Nat × Nat)) (r : Nat) : Option Nat :=
  writes.foldl (fun acc p => if p.1 = r then some p.2 else acc) none

/-- irqs_allowed ResourceType RegType: filter the interrupt table down to
interrupts that have an enable field and do not list the resource in their
dependency tuple, take their enable fields, keep the fields living in the
given register, and fold their masks together with bitwise or. -/
def irqsAllowed (cfg : Config) (res reg : Nat) : Nat :=
  let matchingIrqs :=
    cfg.irqs.filter (fun irq => irq.enableField.isSome && !(irq.resources.contains res))
  let interruptEnables := matchingIrqs.filterMap (·.enableField)
  let fieldsInReg := interruptEnables.filter (fun f => f.reg == reg)
  fieldsInReg.foldl (fun value f => value ||| f.mask) 0

/-- all_resources: fold over the interrupt table, appending each interrupt
resource tuple filtered by not-already-collected. -/
def allResources (cfg : Config) : List Nat :=
  cfg.irqs.foldl
    (fun resources irq =>
      resources ++ irq.resources.filter (fun r => !(resources.contains r)))
    []

/-- get_unique_regs on a list of register identities: keep the first
occurrence of each register, preserving order. -/
def dedupNat (l : List Nat) : List Nat :=
  l.foldl (fun regs r => if regs.contains r then regs else regs ++ [r]) []

/-- get_unique_regs applied to a tuple of fields: the deduplicated registers
of the fields. -/
def getUniqueRegs (fields : List IField) : List Nat :=
  dedupNat (fields.map (·.reg))

/-- all_resource_affected_regs: the deduplicated registers of the enable
fields of interrupts that have an enable field and a nonempty resource
tuple. -/
def affectedRegs (cfg : Config) : List Nat :=
  dedupNat
    (((cfg.irqs.filter
        (fun irq => irq.enableField.isSome && !irq.resources.isEmpty)).filterMap
        (·.enableField)).map (·.reg))

/-- reprogram_interrupt_enables: for each register in regs, write
allowed_enables and dynamic_enables to the hardware register. -/
def reprogram (regs : List Nat) (st : DCState) : DCState :=
  regs.foldl
    (fun s r => { s with writes := s.writes ++ [(r, s.allowed r &&& s.dynamic r)] })
    st

/-- recalculate_allowed_enables: reset allowed_enables of every resource
affected register to all-ones, then for each resource that is not on, mask
each affected register with irqs_allowed for that resource. -/
def recalc (cfg : Config) (st : DCState) : DCState :=
  let st1 :=
    (affectedRegs cfg).foldl
      (fun s r => { s with allowed := updf s.allowed r (allOnes cfg r) }) st
  (allResources cfg).foldl
    (fun s res =>
      if s.resOn res then s
      else
        (affectedRegs cfg).foldl
          (fun s2 r =>
            { s2 with allowed := updf s2.allowed r (s2.allowed r &&& irqsAllowed cfg res r) })
          s)
    st1

/-- update_resource: set is_resource_on for the resource, recalculate the
allowed masks and reprogram every resource affected register. -/
def updateResource (cfg : Config) (res : Nat) (status : Bool) (st : DCState) : DCState :=
  let st1 := { st with resOn := updf st.resOn res status }
  reprogram (affectedRegs cfg) (recalc cfg st1)

/-- turn_on_resource. -/
def turnOnResource (cfg : Config) (res : Nat) (st : DCState) : DCState :=
  updateResource cfg res true st

/-- turn_off_resource. -/
def turnOffResource (cfg : Config) (res : Nat) (st : DCState) : DCState :=
  updateResource cfg res false st

/-- One step of the dynamic_enables update of enable_by_field: set the field
bits with or, or clear them by anding with the width-truncated complement of
the mask (the C++ bitwise not on DataType). -/
def setReq (cfg : Config) (en : Bool) (f : IField) (d : Nat) : Nat :=
  if en then d ||| f.mask else d &&& (allOnes cfg f.reg ^^^ f.mask)

/-- enable_by_field: update dynamic_enables for each field, then reprogram the
deduplicated registers of the fields. -/
def enableByField (cfg : Config) (en : Bool) (fields : List IField) (st : DCState) : DCState :=
  let st1 :=
    fields.foldl
      (fun s f => { s with dynamic := updf s.dynamic f.reg (setReq cfg en f (s.dynamic f.reg)) })
      st
  reprogram (getUniqueRegs fields) st1

/-- The fields collected by enable_by_name: enable fields of interrupts whose
callback identity is among the given ones and that have an enable field. -/
def matchingFields (cfg : Config) (cbs : List Nat) : List IField :=
  (cfg.irqs.filter
      (fun irq => irq.enableField.isSome && cbs.contains irq.callback)).filterMap
    (·.enableField)

/-- enable_by_name: resolve matching interrupts and delegate to
enable_by_field on their enable fields. -/
def enableByName (cfg : Config) (en : Bool) (cbs : List Nat) (st : DCState) : DCState :=
  enableByField cfg en (matchingFields cfg cbs) st

/-- The enable entry point. -/
def enableCallbacks (cfg : Config) (cbs : List Nat) (st : DCState) : DCState :=
  enableByName cfg true cbs st

/-- The disable entry point. -/
def disableCallbacks (cfg : Config) (cbs : List Nat) (st : DCState) : DCState :=
  enableByName cfg false cbs st

/-- A control-surface call. -/
inductive Op where
  | updateRes (res : Nat) (status : Bool)
  | enableFields (en : Bool) (fields : List IField)
  | enableName (en : Bool) (cbs : List Nat)
deriving DecidableEq

/-- Execute one control-surface call. -/
def step (cfg : Config) (st : DCState) : Op → DCState
  | .updateRes res status => updateResource cfg res status st
  | .enableFields en fields => enableByField cfg en fields st
  | .enableName en cbs => enableByName cfg en cbs st

/-- The CONSTINIT initial values: allowed_enables all-ones, dynamic_enables
zero, every resource on, no hardware write issued yet. -/
def initState (cfg : Config) : DCState :=
  { allowed := fun r => allOnes cfg r
    dynamic := fun _ => 0
    resOn := fun _ => true
    writes := [] }

/-- The state after a sequence of control-surface calls from the initial
state. -/
def run (cfg : Config) (ops : List Op) : DCState :=
  ops.foldl (step cfg) (initState cfg)

/-- The allowed mask as a pure function of the resource states: all-ones
masked by irqs_allowed of every resource that is off. -/
def allowedOf (cfg : Config) (resOn : Nat → Bool) (r : Nat) : Nat :=
  (allResources cfg).foldl
    (fun m res => if resOn res then m else m &&& irqsAllowed cfg res r)
    (allOnes cfg r)

/-- Whether interrupt J claims bit b of register r through its enable field. -/
def claimsBit (J : Irq) (r b : Nat) : Bool :=
  match J.enableField with
  | some g => g.reg == r && g.mask.testBit b
  | none => false

/-! ### Basic fold and projection lemmas -/

theorem lastWrite_append (l : List (Nat × Nat)) (a : Nat × Nat) (r : Nat) :
    lastWrite (l ++ [a]) r = if a.1 = r then some a.2 else lastWrite l r := by
  simp [lastWrite, List.foldl_append]

theorem foldl_preserve {α β : Type} (g : DCState → β) (f : DCState → α → DCState)
    (h : ∀ s x, g (f s x) = g s) :
    ∀ (l : List α) (s : DCState), g (l.foldl f s) = g s := by
  intro l
  induction l with
  | nil => intro s; rfl
  | cons a t ih => intro s; rw [List.foldl_cons, ih, h]

theorem reprogram_allowed (regs : List Nat) (st : DCState) :
    (reprogram regs st).allowed = st.allowed := by
  unfold reprogram
  exact foldl_preserve (·.allowed)
    (fun s r => { s with writes := s.writes ++ [(r, s.allowed r &&& s.dynamic r)] })
    (fun _ _ => rfl) regs st

theorem reprogram_dynamic (regs : List Nat) (st : DCState) :
    (reprogram regs st).dynamic = st.dynamic := by
  unfold reprogram
  exact foldl_preserve (·.dynamic)
    (fun s r => { s with writes := s.writes ++ [(r, s.allowed r &&& s.dynamic r)] })
    (fun _ _ => rfl) regs st

theorem reprogram_resOn (regs : List Nat) (st : DCState) :
    (reprogram regs st).resOn = st.resOn := by
  unfold reprogram
  exact foldl_preserve (·.resOn)
    (fun s r => { s with writes := s.writes ++ [(r, s.allowed r &&& s.dynamic r)] })
    (fun _ _ => rfl) regs st

theorem reprogram_lastWrite (regs : List Nat) (st : DCState) (r : Nat) :
    lastWrite (reprogram regs st).writes r =
      if r ∈ regs then some (st.allowed r &&& st.dynamic r) else lastWrite st.writes r := by
  induction regs generalizing st with
  | nil => simp [reprogram]
  | cons a t ih =>
    simp only [reprogram, List.foldl_cons] at ih ⊢
    rw [ih]
    by_cases hra : r ∈ t
    · simp [hra]
    · by_cases hr : r = a
      · subst hr
        simp [hra, lastWrite_append]
      · simp [hra, hr, lastWrite_append, Ne.symm hr]

theorem mem_dedup_fold (l acc : List Nat) (r : Nat) :
    r ∈ l.foldl (fun regs x => if regs.contains x then regs else regs ++ [x]) acc ↔
      r ∈ acc ∨ r ∈ l := by
  induction l generalizing acc with
  | nil => simp
  | cons a t ih =>
    simp only [List.foldl_cons]
    by_cases h : acc.contains a = true
    · rw [if_pos h, ih]
      have ha : a ∈ acc := List.elem_iff.mp h
      simp only [List.mem_cons]
      constructor
      · rintro (hx | hx)
        · exact Or.inl hx
        · exact Or.inr (Or.inr hx)
      · rintro (hx | hx | hx)
        · exact Or.inl hx
        · exact Or.inl (by rw [hx]; exact ha)
        · exact Or.inr hx
    · rw [if_neg h, ih]
      simp only [List.mem_append, List.mem_singleton, List.mem_cons]
      tauto

theorem mem_dedupNat (l : List Nat) (r : Nat) : r ∈ dedupNat l ↔ r ∈ l := by
  rw [dedupNat, mem_dedup_fold]
  simp

theorem mem_getUniqueRegs (fields : List IField) (r : Nat) :
    r ∈ getUniqueRegs fields ↔ r ∈ fields.map (·.reg) := by
  rw [getUniqueRegs, mem_dedupNat]

theorem mem_affectedRegs (cfg : Config) (r : Nat) :
    r ∈ affectedRegs cfg ↔
      ∃ irq ∈ cfg.irqs, ∃ f, irq.enableField = some f ∧ irq.resources ≠ [] ∧ f.reg = r := by
  rw [affectedRegs, mem_dedupNat]
  simp only [List.mem_map, List.mem_filterMap, List.mem_filter, Bool.and_eq_true,
    Option.isSome_iff_exists, Bool.not_eq_true']
  constructor
  · rintro ⟨f, ⟨irq, ⟨⟨hmem, ⟨g, hg⟩, hne⟩, hf⟩⟩, hr⟩
    refine ⟨irq, hmem, f, hf, ?_, hr⟩
    intro hnil
    rw [hnil] at hne
    simp at hne
  · rintro ⟨irq, hmem, f, hf, hne, hr⟩
    refine ⟨f, ⟨irq, ⟨⟨hmem, ⟨f, hf⟩, ?_⟩, hf⟩⟩, hr⟩
    cases h : irq.resources.isEmpty
    · rfl
    · exact absurd (List.isEmpty_iff.mp h) hne

theorem mem_allResources_fold (l : List Irq) (acc : List Nat) (r : Nat) :
    r ∈ l.foldl
        (fun resources irq =>
          resources ++ irq.resources.filter (fun x => !(resources.contains x)))
        acc ↔
      r ∈ acc ∨ ∃ irq ∈ l, r ∈ irq.resources := by
  induction l generalizing acc with
  | nil => simp
  | cons a t ih =>
    simp only [List.foldl_cons, ih, List.mem_append, List.mem_filter, Bool.not_eq_true',
      List.mem_cons]
    constructor
    · rintro (⟨hx | ⟨hx, _⟩⟩ | ⟨irq, hirq, hx⟩)
      · exact Or.inl hx
      · exact Or.inr ⟨a, Or.inl rfl, hx⟩
      · exact Or.inr ⟨irq, Or.inr hirq, hx⟩
    · rintro (hx | ⟨irq, hirq | hirq, hx⟩)
      · exact Or.inl (Or.inl hx)
      · subst hirq
        by_cases hacc : acc.contains r
        · exact Or.inl (Or.inl (List.elem_iff.mp hacc))
        · exact Or.inl (Or.inr ⟨hx, by simpa using hacc⟩)
      · exact Or.inr ⟨irq, hirq, hx⟩

theorem mem_allResources (cfg : Config) (r : Nat) :
    r ∈ allResources cfg ↔ ∃ irq ∈ cfg.irqs, r ∈ irq.resources := by
  rw [allResources, mem_allResources_fold]
  simp

/-! ### Characterizing recalculate_allowed_enables -/

theorem reset_fold_allowed (cfg : Config) (regs : List Nat) (st : DCState) (r : Nat) :
    ((regs.foldl (fun s x => { s with allowed := updf s.allowed x (allOnes cfg x) }) st).allowed)
        r =
      if r ∈ regs then allOnes cfg r else st.allowed r := by
  induction regs generalizing st with
  | nil => simp
  | cons a t ih =>
    rw [List.foldl_cons, ih]
    by_cases hrt : r ∈ t
    · simp [hrt]
    · by_cases hra : r = a
      · subst hra
        simp [hrt, updf]
      · simp [hrt, hra, updf, List.mem_cons]

theorem reset_fold_resOn (cfg : Config) (regs : List Nat) (st : DCState) :
    (regs.foldl (fun s x => { s with allowed := updf s.allowed x (allOnes cfg x) }) st).resOn =
      st.resOn :=
  foldl_preserve (·.resOn)
    (fun s x => { s with allowed := updf s.allowed x (allOnes cfg x) })
    (fun _ _ => rfl) regs st

theorem inner_fold_allowed (cfg : Config) (res : Nat) (regs : List Nat) (st : DCState) (r : Nat) :
    ((regs.foldl
          (fun s2 x =>
            { s2 with allowed := updf s2.allowed x (s2.allowed x &&& irqsAllowed cfg res x) })
          st).allowed) r =
      if r ∈ regs then st.allowed r &&& irqsAllowed cfg res r else st.allowed r := by
  induction regs generalizing st with
  | nil => simp
  | cons a t ih =>
    rw [List.foldl_cons, ih]
    by_cases hra : r = a
    · subst hra
      by_cases hrt : r ∈ t
      · simp [hrt, updf, Nat.and_assoc, Nat.and_self]
      · simp [hrt, updf]
    · by_cases hrt : r ∈ t
      · simp [hrt, updf, hra]
      · simp [hrt, hra, updf, List.mem_cons]

theorem inner_fold_resOn (cfg : Config) (res : Nat) (regs : List Nat) (st : DCState) :
    (regs.foldl
        (fun s2 x =>
          { s2 with allowed := updf s2.allowed x (s2.allowed x &&& irqsAllowed cfg res x) })
        st).resOn = st.resOn :=
  foldl_preserve (·.resOn)
    (fun s2 x => { s2 with allowed := updf s2.allowed x (s2.allowed x &&& irqsAllowed cfg res x) })
    (fun _ _ => rfl) regs st

theorem outer_fold_resOn (cfg : Config) (resources : List Nat) (st : DCState) :
    (resources.foldl
        (fun s res =>
          if s.resOn res then s
          else
            (affectedRegs cfg).foldl
              (fun s2 x =>
                { s2 with
                  allowed := updf s2.allowed x (s2.allowed x &&& irqsAllowed cfg res x) })
              s)
        st).resOn = st.resOn := by
  induction resources generalizing st with
  | nil => rfl
  | cons a t ih =>
    rw [List.foldl_cons, ih]
    by_cases h : st.resOn a
    · rw [if_pos h]
    · rw [if_neg h, inner_fold_resOn]

theorem outer_fold_allowed (cfg : Config) (resources : List Nat) (st : DCState) (r : Nat)
    (hr : r ∈ affectedRegs cfg) :
    ((resources.foldl
          (fun s res =>
            if s.resOn res then s
            else
              (affectedRegs cfg).foldl
                (fun s2 x =>
                  { s2 with
                    allowed := updf s2.allowed x (s2.allowed x &&& irqsAllowed cfg res x) })
                s)
          st).allowed) r =
      resources.foldl
        (fun m res => if st.resOn res then m else m &&& irqsAllowed cfg res r)
        (st.allowed r) := by
  induction resources generalizing st with
  | nil => rfl
  | cons a t ih =>
    rw [List.foldl_cons, List.foldl_cons]
    by_cases h : st.resOn a
    · rw [if_pos h, if_pos h, ih]
    · rw [if_neg h, if_neg h, ih]
      rw [inner_fold_resOn, inner_fold_allowed, if_pos hr]

theorem outer_fold_allowed_not (cfg : Config) (resources : List Nat) (st : DCState) (r : Nat)
    (hr : r ∉ affectedRegs cfg) :
    ((resources.foldl
          (fun s res =>
            if s.resOn res then s
            else
              (affectedRegs cfg).foldl
                (fun s2 x =>
                  { s2 with
                    allowed := updf s2.allowed x (s2.allowed x &&& irqsAllowed cfg res x) })
                s)
          st).allowed) r = st.allowed r := by
  induction resources generalizing st with
  | nil => rfl
  | cons a t ih =>
    rw [List.foldl_cons]
    by_cases h : st.resOn a
    · rw [if_pos h, ih]
    · rw [if_neg h, ih, inner_fold_allowed, if_neg hr]

theorem recalc_resOn (cfg : Config) (st : DCState) : (recalc cfg st).resOn = st.resOn := by
  unfold recalc
  rw [outer_fold_resOn, reset_fold_resOn]

theorem recalc_dynamic (cfg : Config) (st : DCState) : (recalc cfg st).dynamic = st.dynamic := by
  unfold recalc
  rw [foldl_preserve (·.dynamic) _ (fun s res => by
        by_cases h : s.resOn res
        · rw [if_pos h]
        · rw [if_neg h]
          exact foldl_preserve (·.dynamic)
            (fun s2 x =>
              { s2 with allowed := updf s2.allowed x (s2.allowed x &&& irqsAllowed cfg res x) })
            (fun _ _ => rfl) _ s)]
  exact foldl_preserve (·.dynamic)
    (fun s x => { s with allowed := updf s.allowed x (allOnes cfg x) })
    (fun _ _ => rfl) _ st

theorem recalc_writes (cfg : Config) (st : DCState) : (recalc cfg st).writes = st.writes := by
  unfold recalc
  rw [foldl_preserve (·.writes) _ (fun s res => by
        by_cases h : s.resOn res
        · rw [if_pos h]
        · rw [if_neg h]
          exact foldl_preserve (·.writes)
            (fun s2 x =>
              { s2 with allowed := updf s2.allowed x (s2.allowed x &&& irqsAllowed cfg res x) })
            (fun _ _ => rfl) _ s)]
  exact foldl_preserve (·.writes)
    (fun s x => { s with allowed := updf s.allowed x (allOnes cfg x) })
    (fun _ _ => rfl) _ st

theorem recalc_allowed (cfg : Config) (st : DCState) (r : Nat) (hr : r ∈ affectedRegs cfg) :
    (recalc cfg st).allowed r = allowedOf cfg st.resOn r := by
  unfold recalc
  rw [outer_fold_allowed cfg _ _ r hr, reset_fold_resOn, reset_fold_allowed, if_pos hr,
    allowedOf]

theorem recalc_allowed_not (cfg : Config) (st : DCState) (r : Nat) (hr : r ∉ affectedRegs cfg) :
    (recalc cfg st).allowed r = st.allowed r := by
  unfold recalc
  rw [outer_fold_allowed_not cfg _ _ r hr, reset_fold_allowed, if_neg hr]

/-! ### Frame and effect lemmas for the control surface -/

theorem updateResource_dynamic (cfg : Config) (res : Nat) (status : Bool) (st : DCState) :
    (updateResource cfg res status st).dynamic = st.dynamic := by
  unfold updateResource
  rw [reprogram_dynamic, recalc_dynamic]

theorem updateResource_resOn (cfg : Config) (res : Nat) (status : Bool) (st : DCState) :
    (updateResource cfg res status st).resOn = updf st.resOn res status := by
  unfold updateResource
  rw [reprogram_resOn, recalc_resOn]

theorem updateResource_allowed (cfg : Config) (res : Nat) (status : Bool) (st : DCState)
    (r : Nat) (hr : r ∈ affectedRegs cfg) :
    (updateResource cfg res status st).allowed r = allowedOf cfg (updf st.resOn res status) r := by
  unfold updateResource
  rw [reprogram_allowed, recalc_allowed _ _ _ hr]

theorem updateResource_allowed_not (cfg : Config) (res : Nat) (status : Bool) (st : DCState)
    (r : Nat) (hr : r ∉ affectedRegs cfg) :
    (updateResource cfg res status st).allowed r = st.allowed r := by
  unfold updateResource
  rw [reprogram_allowed, recalc_allowed_not _ _ _ hr]

theorem updateResource_lastWrite (cfg : Config) (res : Nat) (status : Bool) (st : DCState)
    (r : Nat) :
    lastWrite (updateResource cfg res status st).writes r =
      if r ∈ affectedRegs cfg then
        some ((updateResource cfg res status st).allowed r &&& st.dynamic r)
      else lastWrite st.writes r := by
  unfold updateResource
  rw [reprogram_lastWrite, reprogram_allowed, recalc_dynamic, recalc_writes]

theorem dynFold_allowed (cfg : Config) (en : Bool) (fields : List IField) (st : DCState) :
    (fields.foldl
        (fun s f => { s with dynamic := updf s.dynamic f.reg (setReq cfg en f (s.dynamic f.reg)) })
        st).allowed = st.allowed :=
  foldl_preserve (·.allowed)
    (fun s f => { s with dynamic := updf s.dynamic f.reg (setReq cfg en f (s.dynamic f.reg)) })
    (fun _ _ => rfl) fields st

theorem dynFold_resOn (cfg : Config) (en : Bool) (fields : List IField) (st : DCState) :
    (fields.foldl
        (fun s f => { s with dynamic := updf s.dynamic f.reg (setReq cfg en f (s.dynamic f.reg)) })
        st).resOn = st.resOn :=
  foldl_preserve (·.resOn)
    (fun s f => { s with dynamic := updf s.dynamic f.reg (setReq cfg en f (s.dynamic f.reg)) })
    (fun _ _ => rfl) fields st

theorem dynFold_writes (cfg : Config) (en : Bool) (fields : List IField) (st : DCState) :
    (fields.foldl
        (fun s f => { s with dynamic := updf s.dynamic f.reg (setReq cfg en f (s.dynamic f.reg)) })
        st).writes = st.writes :=
  foldl_preserve (·.writes)
    (fun s f => { s with dynamic := updf s.dynamic f.reg (setReq cfg en f (s.dynamic f.reg)) })
    (fun _ _ => rfl) fields st

theorem dynFold_dynamic_not (cfg : Config) (en : Bool) (fields : List IField) (st : DCState)
    (r : Nat) (hr : r ∉ fields.map (·.reg)) :
    (fields.foldl
        (fun s f => { s with dynamic := updf s.dynamic f.reg (setReq cfg en f (s.dynamic f.reg)) })
        st).dynamic r = st.dynamic r := by
  induction fields generalizing st with
  | nil => rfl
  | cons a t ih =>
    rw [List.foldl_cons, ih]
    · show updf st.dynamic a.reg _ r = _
      have hra : r ≠ a.reg := fun h =>
        hr (List.mem_map.mpr ⟨a, List.mem_cons_self a t, h.symm⟩)
      simp [updf, hra]
    · intro h
      exact hr (by
        simp only [List.map_cons, List.mem_cons]
        exact Or.inr h)

theorem enableByField_allowed (cfg : Config) (en : Bool) (fields : List IField) (st : DCState) :
    (enableByField cfg en fields st).allowed = st.allowed := by
  unfold enableByField
  rw [reprogram_allowed, dynFold_allowed]

theorem enableByField_resOn (cfg : Config) (en : Bool) (fields : List IField) (st : DCState) :
    (enableByField cfg en fields st).resOn = st.resOn := by
  unfold enableByField
  rw [reprogram_resOn, dynFold_resOn]

theorem enableByField_dynamic_not (cfg : Config) (en : Bool) (fields : List IField)
    (st : DCState) (r : Nat) (hr : r ∉ getUniqueRegs fields) :
    (enableByField cfg en fields st).dynamic r = st.dynamic r := by
  unfold enableByField
  rw [reprogram_dynamic, dynFold_dynamic_not]
  exact fun h => hr ((mem_getUniqueRegs fields r).mpr h)

theorem enableByField_lastWrite (cfg : Config) (en : Bool) (fields : List IField)
    (st : DCState) (r : Nat) :
    lastWrite (enableByField cfg en fields st).writes r =
      if r ∈ getUniqueRegs fields then
        some (st.allowed r &&& (enableByField cfg en fields st).dynamic r)
      else lastWrite st.writes r := by
  unfold enableByField
  rw [reprogram_lastWrite, reprogram_dynamic, dynFold_allowed, dynFold_writes]

/-! ### The two run-time invariants -/

/-- Invariant: on every resource affected register the allowed mask is the
pure function allowedOf of the resource states, and on every other register it
is still the initial all-ones value. -/
def purityInv (cfg : Config) (st : DCState) : Prop :=
  (∀ r ∈ affectedRegs cfg, st.allowed r = allowedOf cfg st.resOn r) ∧
  (∀ r ∉ affectedRegs cfg, st.allowed r = allOnes cfg r)

/-- Invariant: the value most recently written to any register is the bitwise
and of its allowed mask and its dynamic mask. -/
def maskInv (st : DCState) : Prop :=
  ∀ r v, lastWrite st.writes r = some v → v = st.allowed r &&& st.dynamic r

theorem allowedOf_all_on (cfg : Config) (ρ : Nat → Bool) (hρ : ∀ x, ρ x = true) (r : Nat) :
    allowedOf cfg ρ r = allOnes cfg r := by
  unfold allowedOf
  generalize allOnes cfg r = m
  induction allResources cfg generalizing m with
  | nil => rfl
  | cons a t ih =>
    rw [List.foldl_cons, hρ a, if_pos rfl, ih]

theorem purityInv_init (cfg : Config) : purityInv cfg (initState cfg) := by
  constructor
  · intro r _
    show allOnes cfg r = allowedOf cfg (fun _ => true) r
    rw [allowedOf_all_on cfg _ (fun _ => rfl)]
  · intro r _
    rfl

theorem maskInv_init (cfg : Config) : maskInv (initState cfg) := by
  intro r v h
  simp [initState, lastWrite] at h

theorem purityInv_step (cfg : Config) (st : DCState) (op : Op) (h : purityInv cfg st) :
    purityInv cfg (step cfg st op) := by
  cases op with
  | updateRes res status =>
    constructor
    · intro r hr
      rw [show step cfg st (.updateRes res status) = updateResource cfg res status st from rfl,
        updateResource_allowed _ _ _ _ _ hr, updateResource_resOn]
    · intro r hr
      rw [show step cfg st (.updateRes res status) = updateResource cfg res status st from rfl,
        updateResource_allowed_not _ _ _ _ _ hr]
      exact h.2 r hr
  | enableFields en fields =>
    constructor
    · intro r hr
      rw [show step cfg st (.enableFields en fields) = enableByField cfg en fields st from rfl,
        enableByField_allowed, enableByField_resOn]
      exact h.1 r hr
    · intro r hr
      rw [show step cfg st (.enableFields en fields) = enableByField cfg en fields st from rfl,
        enableByField_allowed]
      exact h.2 r hr
  | enableName en cbs =>
    constructor
    · intro r hr
      rw [show step cfg st (.enableName en cbs) =
            enableByField cfg en (matchingFields cfg cbs) st from rfl,
        enableByField_allowed, enableByField_resOn]
      exact h.1 r hr
    · intro r hr
      rw [show step cfg st (.enableName en cbs) =
            enableByField cfg en (matchingFields cfg cbs) st from rfl,
        enableByField_allowed]
      exact h.2 r hr

theorem purityInv_run (cfg : Config) (ops : List Op) : purityInv cfg (run cfg ops) := by
  unfold run
  have h : ∀ (l : List Op) (st : DCState), purityInv cfg st → purityInv cfg (l.foldl (step cfg) st) := by
    intro l
    induction l with
    | nil => intro st hst; exact hst
    | cons a t ih =>
      intro st hst
      rw [List.foldl_cons]
      exact ih _ (purityInv_step cfg st a hst)
  exact h ops (initState cfg) (purityInv_init cfg)

theorem maskInv_step (cfg : Config) (st : DCState) (op : Op) (h : maskInv st) :
    maskInv (step cfg st op) := by
  cases op with
  | updateRes res status =>
    intro r v hv
    rw [show step cfg st (.updateRes res status) = updateResource cfg res status st from rfl] at *
    rw [updateResource_lastWrite] at hv
    by_cases hr : r ∈ affectedRegs cfg
    · rw [if_pos hr] at hv
      cases hv
      rw [updateResource_dynamic]
    · rw [if_neg hr] at hv
      rw [updateResource_dynamic, updateResource_allowed_not _ _ _ _ _ hr]
      exact h r v hv
  | enableFields en fields =>
    intro r v hv
    rw [show step cfg st (.enableFields en fields) = enableByField cfg en fields st from rfl] at *
    rw [enableByField_lastWrite] at hv
    by_cases hr : r ∈ getUniqueRegs fields
    · rw [if_pos hr] at hv
      cases hv
      rw [enableByField_allowed]
    · rw [if_neg hr] at hv
      rw [enableByField_allowed, enableByField_dynamic_not _ _ _ _ _ hr]
      exact h r v hv
  | enableName en cbs =>
    intro r v hv
    rw [show step cfg st (.enableName en cbs) =
          enableByField cfg en (matchingFields cfg cbs) st from rfl] at *
    rw [enableByField_lastWrite] at hv
    by_cases hr : r ∈ getUniqueRegs (matchingFields cfg cbs)
    · rw [if_pos hr] at hv
      cases hv
      rw [enableByField_allowed]
    · rw [if_neg hr] at hv
      rw [enableByField_allowed, enableByField_dynamic_not _ _ _ _ _ hr]
      exact h r v hv

theorem maskInv_run (cfg : Config) (ops : List Op) : maskInv (run cfg ops) := by
  unfold run
  have h : ∀ (l : List Op) (st : DCState), maskInv st → maskInv (l.foldl (step cfg) st) := by
    intro l
    induction l with
    | nil => intro st hst; exact hst
    | cons a t ih =>
      intro st hst
      rw [List.foldl_cons]
      exact ih _ (maskInv_step cfg st a hst)
  exact h ops (initState cfg) (maskInv_init cfg)

/-! ### Bit-level characterization of irqs_allowed and allowedOf -/

theorem contains_eq_false_iff (l : List Nat) (a : Nat) : l.contains a = false ↔ a ∉ l := by
  rw [Bool.eq_false_iff]
  exact not_congr List.elem_iff

theorem foldl_or_testBit (l : List IField) (init b : Nat) :
    (l.foldl (fun v f => v ||| f.mask) init).testBit b =
      (init.testBit b || l.any (fun f => f.mask.testBit b)) := by
  induction l generalizing init with
  | nil => simp
  | cons a t ih =>
    rw [List.foldl_cons, ih]
    simp [Nat.testBit_or, Bool.or_assoc]

theorem irqsAllowed_testBit (cfg : Config) (res reg b : Nat) :
    (irqsAllowed cfg res reg).testBit b = true ↔
      ∃ irq ∈ cfg.irqs, ∃ f, irq.enableField = some f ∧ res ∉ irq.resources ∧
        f.reg = reg ∧ f.mask.testBit b = true := by
  unfold irqsAllowed
  rw [foldl_or_testBit]
  simp only [Nat.zero_testBit, Bool.false_or, List.any_eq_true, List.mem_filter,
    List.mem_filterMap, Bool.and_eq_true, Option.isSome_iff_exists, Bool.not_eq_true',
    contains_eq_false_iff, beq_iff_eq]
  constructor
  · rintro ⟨f, ⟨⟨irq, ⟨⟨hmem, _, hres⟩, hf⟩⟩, hreg⟩, hbit⟩
    exact ⟨irq, hmem, f, hf, hres, hreg, hbit⟩
  · rintro ⟨irq, hmem, f, hf, hres, hreg, hbit⟩
    exact ⟨f, ⟨⟨irq, ⟨⟨hmem, ⟨f, hf⟩, hres⟩, hf⟩⟩, hreg⟩, hbit⟩

theorem foldl_and_if_testBit (cfg : Config) (ρ : Nat → Bool) (r b : Nat) (l : List Nat)
    (init : Nat) :
    (l.foldl (fun m res => if ρ res then m else m &&& irqsAllowed cfg res r) init).testBit b =
      (init.testBit b && l.all (fun res => ρ res || (irqsAllowed cfg res r).testBit b)) := by
  induction l generalizing init with
  | nil => simp
  | cons a t ih =>
    rw [List.foldl_cons]
    cases hρ : ρ a
    · rw [if_neg Bool.false_ne_true, ih]
      simp [Nat.testBit_and, hρ, Bool.and_assoc]
    · rw [if_pos rfl, ih]
      simp [hρ]

theorem allowedOf_testBit (cfg : Config) (ρ : Nat → Bool) (r b : Nat) :
    (allowedOf cfg ρ r).testBit b =
      ((allOnes cfg r).testBit b &&
        (allResources cfg).all (fun res => ρ res || (irqsAllowed cfg res r).testBit b)) := by
  unfold allowedOf
  exact foldl_and_if_testBit cfg ρ r b (allResources cfg) (allOnes cfg r)

theorem testBit_lt_width (w m b : Nat) (hm : m < 2 ^ w) (hb : m.testBit b = true) : b < w := by
  have h1 : 2 ^ b ≤ m := Nat.testBit_implies_ge hb
  exact (Nat.pow_lt_pow_iff_right (by norm_num)).mp (lt_of_le_of_lt h1 hm)

/-- Core characterization: in any state where the purity invariant holds, the
allowed bit of a field claimed by exactly one interrupt is clear exactly when
some resource that interrupt depends on is off. -/
theorem allowed_bit_char (cfg : Config) (st : DCState) (h : purityInv cfg st)
    (I : Irq) (f : IField) (b : Nat)
    (hI : I ∈ cfg.irqs) (hf : I.enableField = some f)
    (hm : f.mask < 2 ^ cfg.regWidth f.reg) (hb : f.mask.testBit b = true)
    (huniq : ∀ J ∈ cfg.irqs, claimsBit J f.reg b = true → J = I)
    (hr : f.reg ∈ affectedRegs cfg) :
    ((st.allowed f.reg).testBit b = false ↔ ∃ res ∈ I.resources, st.resOn res = false) := by
  rw [h.1 f.reg hr, Bool.eq_false_iff, allowedOf_testBit]
  have hw : (allOnes cfg f.reg).testBit b = true := by
    rw [allOnes, Nat.testBit_two_pow_sub_one]
    exact decide_eq_true (testBit_lt_width _ _ _ hm hb)
  rw [hw, Bool.true_and]
  have hchar : ∀ res, ((irqsAllowed cfg res f.reg).testBit b = true) ↔ res ∉ I.resources := by
    intro res
    rw [irqsAllowed_testBit]
    constructor
    · rintro ⟨J, hJ, g, hg, hres, hreg, hgb⟩
      have hJI : J = I := huniq J hJ (by
        rw [claimsBit, hg]
        show (g.reg == f.reg && g.mask.testBit b) = true
        rw [hreg, hgb]
        simp)
      subst hJI
      rw [hg] at hf
      cases hf
      exact hres
    · intro hres
      exact ⟨I, hI, f, hf, hres, rfl, hb⟩
  rw [← Bool.eq_false_iff, Bool.eq_false_iff]
  constructor
  · intro hall
    rcases (by simpa [List.all_eq_true] using hall :
        ∃ res ∈ allResources cfg,
          ¬(st.resOn res = true ∨ (irqsAllowed cfg res f.reg).testBit b = true)) with
      ⟨res, _, hP⟩
    push_neg at hP
    refine ⟨res, ?_, Bool.eq_false_iff.mpr hP.1 ▸ rfl⟩
    by_contra hnot
    exact hP.2 ((hchar res).mpr hnot)
  · rintro ⟨res, hres, hoff⟩ hall
    have hmem : res ∈ allResources cfg := (mem_allResources cfg res).mpr ⟨I, hI, hres⟩
    have := (List.all_eq_true.mp hall) res hmem
    rcases Bool.or_eq_true_iff.mp this with hon | hbit
    · rw [hoff] at hon
      exact Bool.false_ne_true hon
    · exact (hchar res).mp hbit hres

/-! ### Claim theorems -/

/-- C1: after any sequence of completed control-surface calls, the value most
recently written to any hardware register equals the bitwise and of that
register allowed mask and requested mask in the post-call state. -/
theorem claim1_mask_composition (cfg : Config) (ops : List Op) (r v : Nat)
    (h : lastWrite (run cfg ops).writes r = some v) :
    v = (run cfg ops).allowed r &&& (run cfg ops).dynamic r :=
  maskInv_run cfg ops r v h

def cfgW1 : Config :=
  { irqs := [⟨some ⟨0, 1⟩, [], 0⟩], regWidth := fun _ => 4 }

def opsW1 : List Op := [.enableFields true [⟨0, 1⟩]]

theorem claim1_mask_composition_witness :
    lastWrite (run cfgW1 opsW1).writes 0 = some 1 ∧
      (1 : Nat) = (run cfgW1 opsW1).allowed 0 &&& (run cfgW1 opsW1).dynamic 0 :=
  ⟨by decide, claim1_mask_composition cfgW1 opsW1 0 1 (by decide)⟩

/-- C2: after any sequence of control-surface calls, for an enable field whose
bit is claimed by exactly one interrupt in a resource affected register, the
allowed bit is clear exactly when some resource that interrupt depends on is
off; with no off dependency (in particular no dependency at all) the bit is
set. -/
theorem claim2_allowed_bit_iff_dep_off (cfg : Config) (ops : List Op) (I : Irq) (f : IField)
    (b : Nat) (hI : I ∈ cfg.irqs) (hf : I.enableField = some f)
    (hm : f.mask < 2 ^ cfg.regWidth f.reg) (hb : f.mask.testBit b = true)
    (huniq : ∀ J ∈ cfg.irqs, claimsBit J f.reg b = true → J = I)
    (hr : f.reg ∈ affectedRegs cfg) :
    (((run cfg ops).allowed f.reg).testBit b = false ↔
      ∃ res ∈ I.resources, (run cfg ops).resOn res = false) :=
  allowed_bit_char cfg (run cfg ops) (purityInv_run cfg ops) I f b hI hf hm hb huniq hr

def cfgW2 : Config :=
  { irqs := [⟨some ⟨0, 1⟩, [5], 3⟩], regWidth := fun _ => 8 }

def opsW2 : List Op := [.updateRes 5 false]

theorem claim2_allowed_bit_iff_dep_off_witness :
    (((run cfgW2 opsW2).allowed 0).testBit 0 = false ↔
      ∃ res ∈ ([5] : List Nat), (run cfgW2 opsW2).resOn res = false) :=
  claim2_allowed_bit_iff_dep_off cfgW2 opsW2 ⟨some ⟨0, 1⟩, [5], 3⟩ ⟨0, 1⟩ 0
    (by decide) rfl (by decide) (by decide) (by decide) (by decide)

/-- C3: after any sequence of control-surface calls the allowed mask of every
resource affected register is a pure function of the current resource states
(the fold of irqs_allowed over the off resources starting from all-ones), and
the allowed mask of every other register is still the initial all-ones. -/
theorem claim3_allowed_pure (cfg : Config) (ops : List Op) :
    (∀ r ∈ affectedRegs cfg, (run cfg ops).allowed r = allowedOf cfg (run cfg ops).resOn r) ∧
    (∀ r ∉ affectedRegs cfg, (run cfg ops).allowed r = allOnes cfg r) :=
  purityInv_run cfg ops

def cfgW3 : Config :=
  { irqs := [⟨some ⟨1, 2⟩, [2], 4⟩], regWidth := fun _ => 8 }

def opsW3 : List Op := [.updateRes 2 false]

theorem claim3_allowed_pure_witness :
    (∀ r ∈ affectedRegs cfgW3, (run cfgW3 opsW3).allowed r = allowedOf cfgW3 (run cfgW3 opsW3).resOn r) ∧
    (∀ r ∉ affectedRegs cfgW3, (run cfgW3 opsW3).allowed r = allOnes cfgW3 r) :=
  claim3_allowed_pure cfgW3 opsW3

/-- C4: bit b of irqs_allowed for a resource and register is set exactly when
some interrupt of the table has an enable field in that register claiming bit
b and does not list the resource among its dependencies; interrupts with an
empty resource set or depending only on other resources contribute their bits
and nothing else does. -/
theorem claim4_irqs_allowed_exact (cfg : Config) (res reg b : Nat) :
    (irqsAllowed cfg res reg).testBit b = true ↔
      ∃ irq ∈ cfg.irqs, ∃ f, irq.enableField = some f ∧ res ∉ irq.resources ∧
        f.reg = reg ∧ f.mask.testBit b = true :=
  irqsAllowed_testBit cfg res reg b

/-- C5: from any reachable state in which every resource a uniquely claiming
interrupt depends on is on, turning one dependency off clears the allowed bit
of its field and leaves the requested masks untouched; turning the same
resource back on with no other state change restores the allowed masks, and
if the requested bit was set throughout, the value then written to hardware
has the bit set again without a further enable call. -/
theorem claim5_resource_gating (cfg : Config) (ops : List Op) (I : Irq) (f : IField)
    (A b : Nat) (hI : I ∈ cfg.irqs) (hf : I.enableField = some f) (hA : A ∈ I.resources)
    (hm : f.mask < 2 ^ cfg.regWidth f.reg) (hb : f.mask.testBit b = true)
    (huniq : ∀ J ∈ cfg.irqs, claimsBit J f.reg b = true → J = I)
    (hOn : ∀ res ∈ I.resources, (run cfg ops).resOn res = true) :
    (((updateResource cfg A false (run cfg ops)).allowed f.reg).testBit b = false) ∧
    (updateResource cfg A false (run cfg ops)).dynamic = (run cfg ops).dynamic ∧
    (updateResource cfg A true (updateResource cfg A false (run cfg ops))).allowed =
      (run cfg ops).allowed ∧
    (((run cfg ops).dynamic f.reg).testBit b = true →
      ∃ v, lastWrite
          (updateResource cfg A true (updateResource cfg A false (run cfg ops))).writes
          f.reg = some v ∧ v.testBit b = true) := by
  have hr : f.reg ∈ affectedRegs cfg := by
    refine (mem_affectedRegs cfg f.reg).mpr ⟨I, hI, f, hf, ?_, rfl⟩
    intro hnil
    rw [hnil] at hA
    exact (List.not_mem_nil A) hA
  have hst : purityInv cfg (run cfg ops) := purityInv_run cfg ops
  have hst1 : purityInv cfg (updateResource cfg A false (run cfg ops)) :=
    purityInv_step cfg (run cfg ops) (.updateRes A false) hst
  have hst2 : purityInv cfg
      (updateResource cfg A true (updateResource cfg A false (run cfg ops))) :=
    purityInv_step cfg (updateResource cfg A false (run cfg ops)) (.updateRes A true) hst1
  have hAon : (run cfg ops).resOn A = true := hOn A hA
  have hres2 :
      (updateResource cfg A true (updateResource cfg A false (run cfg ops))).resOn =
        (run cfg ops).resOn := by
    rw [updateResource_resOn, updateResource_resOn]
    funext x
    by_cases hx : x = A
    · subst hx
      simp [updf, hAon]
    · simp [updf, hx]
  refine ⟨?_, updateResource_dynamic cfg A false (run cfg ops), ?_, ?_⟩
  · rw [allowed_bit_char cfg _ hst1 I f b hI hf hm hb huniq hr]
    refine ⟨A, hA, ?_⟩
    rw [updateResource_resOn]
    simp [updf]
  · funext r
    by_cases hrr : r ∈ affectedRegs cfg
    · rw [hst2.1 r hrr, hst.1 r hrr, hres2]
    · rw [hst2.2 r hrr, hst.2 r hrr]
  · intro hdyn
    have hw := updateResource_lastWrite cfg A true
      (updateResource cfg A false (run cfg ops)) f.reg
    rw [if_pos hr] at hw
    refine ⟨_, hw, ?_⟩
    have hbit2 :
        ((updateResource cfg A true
            (updateResource cfg A false (run cfg ops))).allowed f.reg).testBit b = true := by
      by_contra hcontra
      rw [Bool.not_eq_true] at hcontra
      rcases (allowed_bit_char cfg _ hst2 I f b hI hf hm hb huniq hr).mp hcontra with
        ⟨res, hresI, hoff⟩
      rw [hres2, hOn res hresI] at hoff
      exact absurd hoff (by simp)
    rw [Nat.testBit_and, hbit2, updateResource_dynamic, hdyn]
    rfl

def cfgW5 : Config :=
  { irqs := [⟨some ⟨0, 1⟩, [5], 0⟩], regWidth := fun _ => 8 }

def opsW5 : List Op := [.enableFields true [⟨0, 1⟩]]

theorem claim5_resource_gating_witness :
    (((updateResource cfgW5 5 false (run cfgW5 opsW5)).allowed 0).testBit 0 = false) ∧
    (updateResource cfgW5 5 false (run cfgW5 opsW5)).dynamic = (run cfgW5 opsW5).dynamic ∧
    (updateResource cfgW5 5 true (updateResource cfgW5 5 false (run cfgW5 opsW5))).allowed =
      (run cfgW5 opsW5).allowed ∧
    (((run cfgW5 opsW5).dynamic 0).testBit 0 = true →
      ∃ v, lastWrite
          (updateResource cfgW5 5 true (updateResource cfgW5 5 false (run cfgW5 opsW5))).writes
          0 = some v ∧ v.testBit 0 = true) :=
  claim5_resource_gating cfgW5 opsW5 ⟨some ⟨0, 1⟩, [5], 0⟩ ⟨0, 1⟩ 5 0
    (by decide) rfl (by decide) (by decide) (by decide) (by decide) (by decide)

/-- C7: enable_by_name always delegates to enable_by_field on the enable
fields it collects from the matching interrupts, and when the callback
identities match no interrupt that has an enable field it is a complete
no-op: the state, including the masks, the resource flags and the write log,
is unchanged and no error outcome exists. -/
theorem claim7_enable_by_name_no_match (cfg : Config) (en : Bool) (cbs : List Nat)
    (st : DCState) :
    (enableByName cfg en cbs st = enableByField cfg en (matchingFields cfg cbs) st) ∧
    ((∀ irq ∈ cfg.irqs,
        irq.enableField.isSome = true → cbs.contains irq.callback = false) →
      enableByName cfg en cbs st = st) := by
  refine ⟨rfl, fun h => ?_⟩
  have hmf : matchingFields cfg cbs = [] := by
    unfold matchingFields
    have hfil :
        cfg.irqs.filter (fun irq => irq.enableField.isSome && cbs.contains irq.callback) =
          [] := by
      rw [List.filter_eq_nil_iff]
      intro irq hirq
      simp only [Bool.and_eq_true, not_and]
      intro hsome
      rw [h irq hirq hsome]
      simp
    rw [hfil]
    rfl
  rw [enableByName, hmf]
  rfl

def cfgW7 : Config :=
  { irqs := [⟨some ⟨0, 1⟩, [], 3⟩], regWidth := fun _ => 4 }

theorem claim7_enable_by_name_no_match_witness :
    (enableByName cfgW7 false [9] (initState cfgW7) =
      enableByField cfgW7 false (matchingFields cfgW7 [9]) (initState cfgW7)) ∧
    enableByName cfgW7 false [9] (initState cfgW7) = initState cfgW7 :=
  ⟨(claim7_enable_by_name_no_match cfgW7 false [9] (initState cfgW7)).1,
   (claim7_enable_by_name_no_match cfgW7 false [9] (initState cfgW7)).2 (by decide)⟩

/-- C8: update_resource never changes any requested (dynamic_enables) mask,
and enable_by_field, including through enable_by_name, never changes any
allowed mask or any resource state. -/
theorem claim8_frame_separation (cfg : Config) :
    (∀ res status st, (updateResource cfg res status st).dynamic = st.dynamic) ∧
    (∀ en fields st, (enableByField cfg en fields st).allowed = st.allowed ∧
      (enableByField cfg en fields st).resOn = st.resOn) ∧
    (∀ en cbs st, (enableByName cfg en cbs st).allowed = st.allowed ∧
      (enableByName cfg en cbs st).resOn = st.resOn) :=
  ⟨fun res status st => updateResource_dynamic cfg res status st,
   fun en fields st =>
     ⟨enableByField_allowed cfg en fields st, enableByField_resOn cfg en fields st⟩,
   fun en cbs st =>
     ⟨enableByField_allowed cfg en (matchingFields cfg cbs) st,
      enableByField_resOn cfg en (matchingFields cfg cbs) st⟩⟩

/-- An interrupt table in which one interrupt lists the same resource twice:
the malformed input of C6. -/
def cfgDupRes : Config :=
  { irqs := [⟨some ⟨0, 1⟩, [0, 0], 0⟩], regWidth := fun _ => 4 }

/-- C6 evaluation: on a table where one interrupt lists resource 0 twice, the
derivation neither rejects the table nor deduplicates: all_resources comes
out as the list with the duplicate, exactly as the source TODO comment warns
(check that an IRQ does not list a resource more than once). -/
theorem claim6_duplicate_resource_not_deduplicated :
    allResources cfgDupRes = [0, 0] ∧ ¬(allResources cfgDupRes).Nodup := by
  decide

/-! ### The indexed message handler (include/msg/indexed_handler.hpp) -/

/-- One index of indexed_handler: operator() is
field_lookup[Field::extract(data)]; we embed the composition of extract and
lookup as one function from a message to the bitset of callback indices that
claim the extracted field value. -/
structure HandlerIndex (Msg : Type) where
  lookup : Msg → Nat

/-- The indices pack: operator() folds the per-index bitsets with bitwise
and.  The C++ fold expression over the pack requires at least one index, so
the pack is a head plus a possibly empty tail. -/
structure HandlerIndices (Msg : Type) where
  first : HandlerIndex Msg
  rest : List (HandlerIndex Msg)

/-- indices::operator(): the bitwise and of every index lookup. -/
def indicesApply {Msg : Type} (ix : HandlerIndices Msg) (m : Msg) : Nat :=
  ix.rest.foldl (fun v i => v &&& i.lookup m) (ix.first.lookup m)

/-- indexed_handler::is_match: the candidate bitset is not empty. -/
def isMatch {Msg : Type} (ix : HandlerIndices Msg) (m : Msg) : Bool :=
  indicesApply ix m != 0

/-- The set bit positions of a bitset in increasing order: the callback
indices the for_each of handle visits. -/
def bitIndices (n : Nat) : List Nat :=
  (List.range n).filter (fun i => n.testBit i)

/-- The observable outcome of indexed_handler::handle: which callback entries
were invoked, in order, and whether the no-callback error was logged. -/
structure HandleResult where
  invoked : List Nat
  errorLogged : Bool
deriving DecidableEq

/-- indexed_handler::handle: invoke the callback entry of every set bit of
the candidate bitset; when the bitset is empty, log the error about no
registered callback claiming the message. -/
def handle {Msg : Type} (ix : HandlerIndices Msg) (m : Msg) : HandleResult :=
  { invoked := bitIndices (indicesApply ix m)
    errorLogged := indicesApply ix m == 0 }

theorem mem_bitIndices (n i : Nat) : i ∈ bitIndices n ↔ n.testBit i = true := by
  unfold bitIndices
  rw [List.mem_filter, List.mem_range]
  constructor
  · rintro ⟨_, h⟩
    exact h
  · intro h
    exact ⟨lt_of_lt_of_le (Nat.lt_two_pow i) (Nat.testBit_implies_ge h), h⟩

theorem bitIndices_nodup (n : Nat) : (bitIndices n).Nodup :=
  (List.nodup_range n).filter _

theorem bitIndices_eq_nil_iff (n : Nat) : bitIndices n = [] ↔ n = 0 := by
  constructor
  · intro h
    apply Nat.eq_of_testBit_eq
    intro i
    rw [Nat.zero_testBit]
    cases hbit : n.testBit i
    · rfl
    · have hmem : i ∈ bitIndices n := (mem_bitIndices n i).mpr hbit
      rw [h] at hmem
      exact absurd hmem (List.not_mem_nil i)
  · intro h
    subst h
    rfl

/-- C10: is_match holds exactly when the and-intersection of the index
lookups is nonempty, which is exactly when handle invokes at least one
callback entry; handle invokes the entry of each set bit of the intersection
exactly once; and the no-callback error is logged exactly when the
intersection is empty, that is exactly when is_match is false. -/
theorem claim10_indexed_handler (Msg : Type) (ix : HandlerIndices Msg) (m : Msg) :
    (isMatch ix m = true ↔ indicesApply ix m ≠ 0) ∧
    (isMatch ix m = true ↔ (handle ix m).invoked ≠ []) ∧
    (∀ i, (handle ix m).invoked.count i =
      if (indicesApply ix m).testBit i then 1 else 0) ∧
    ((handle ix m).errorLogged = true ↔ indicesApply ix m = 0) ∧
    ((handle ix m).errorLogged = true ↔ ¬isMatch ix m = true) := by
  refine ⟨?_, ?_, ?_, ?_, ?_⟩
  · simp [isMatch, bne_iff_ne]
  · rw [show (handle ix m).invoked = bitIndices (indicesApply ix m) from rfl]
    rw [show (isMatch ix m = true) ↔ indicesApply ix m ≠ 0 from by simp [isMatch, bne_iff_ne]]
    exact not_congr (bitIndices_eq_nil_iff (indicesApply ix m)).symm
  · intro i
    by_cases hbit : (indicesApply ix m).testBit i = true
    · rw [if_pos hbit]
      exact List.count_eq_one_of_mem (bitIndices_nodup _) ((mem_bitIndices _ _).mpr hbit)
    · rw [if_neg hbit]
      exact List.count_eq_zero_of_not_mem (fun hmem => hbit ((mem_bitIndices _ _).mp hmem))
  · simp [handle, beq_iff_eq]
  · simp [handle, isMatch, beq_iff_eq, bne_iff_ne]
